import Mathlib

/-!
# Verification of the vgrd-allocator portfolio rebalancer

A shallow embedding of `scraper.py`.  Python `Decimal` values are modelled
as exact rationals (`ℚ`); Python dicts whose lookup semantics matter
(symbol balances, category totals, the CSV loader accumulator) are
association lists `List (String × _)` with first-match lookup and
insertion-order updates, mirroring `dict` behaviour; the distributor
works over the list of category keys together with total/target functions
(in `main` every dict it reads is total on that key set).  A Python
`Decimal` division, which raises when the divisor is zero, is modelled as
an `Option`-valued division that is `none` exactly on a zero divisor.
-/

namespace VGRD

/-- Decimal division as in Python: raises (here: `none`) iff the divisor
is zero, otherwise exact division. -/
def safeDiv (x y : ℚ) : Option ℚ :=
  if y = 0 then none else some (x / y)

/-- First-match lookup in an association list, as Python `dict` access
(`dict` keys are unique, so first match is the match). -/
def lookupOpt {α : Type} (m : List (String × α)) (k : String) : Option α :=
  match m with
  | [] => none
  | p :: rest => if k = p.1 then some p.2 else lookupOpt rest k

/-- `m.get(k, d)` of a Python dict. -/
def lookupD (m : List (String × ℚ)) (k : String) (d : ℚ) : ℚ :=
  (lookupOpt m k).getD d

/-- Python `m[k] = v` on a dict: overwrite in place when the key exists,
otherwise append (insertion order). -/
def dictInsert (m : List (String × ℚ)) (k : String) (v : ℚ) : List (String × ℚ) :=
  if (lookupOpt m k).isSome then
    m.map (fun p => if p.1 = k then (k, v) else p)
  else m ++ [(k, v)]

/-- Python `m[k] += v` on a dict whose key `k` is present. -/
def updateAdd (m : List (String × ℚ)) (k : String) (v : ℚ) : List (String × ℚ) :=
  m.map (fun p => if p.1 = k then (p.1, p.2 + v) else p)

/-! ## Balance Loader (`get_balance_dictionary`, scraper.py lines 30-52)

A CSV row is the list of its cells; the row list passed in still contains
the header row (the source's `next(reader)` skips it).  `Decimal(str)`
parsing is the out-of-scope collaborator, abstracted as `parseDec`.
Data rows are assumed well formed (at least 6 cells), so `row[2]` /
`row[5]` are modelled with a default. -/

/-- The row loop of `get_balance_dictionary`: stop at the first empty
row, skip the cash symbol, otherwise record `row[2] ↦ parse row[5]`. -/
def get_balance_rows (cash_symbol : String) (parseDec : String → ℚ) :
    List (List String) → List (String × ℚ) → List (String × ℚ)
  | [], acc => acc
  | row :: rest, acc =>
    if row = [] then acc
    else if row.getD 2 "" = cash_symbol then
      get_balance_rows cash_symbol parseDec rest acc
    else
      get_balance_rows cash_symbol parseDec rest
        (dictInsert acc (row.getD 2 "") (parseDec (row.getD 5 "")))

/-- `get_balance_dictionary`: skip the header row, then run the loop with
cash symbol `"VMFXX"` and an empty accumulator. -/
def get_balance_dictionary (parseDec : String → ℚ) (rows : List (List String)) :
    List (String × ℚ) :=
  get_balance_rows "VMFXX" parseDec (rows.drop 1) []

/-! ## Category Aggregator (`get_category_totals`, scraper.py lines 55-64) -/

/-- `get_category_totals`: initialize every category to 0, then for each
`(category, symbols)` pair add `symbol_balances.get(symbol, 0)` for each
listed symbol. -/
def get_category_totals (symbol_balances : List (String × ℚ))
    (categories : List (String × List String)) : List (String × ℚ) :=
  categories.foldl
    (fun acc p =>
      p.2.foldl (fun a s => updateAdd a p.1 (lookupD symbol_balances s 0)) acc)
    (categories.map (fun p => (p.1, (0 : ℚ))))

/-! ## Allocation Analyzer (scraper.py lines 119-124) -/

/-- `total_balance = sum(category_totals.values())`. -/
def total_balance (category_totals : List (String × ℚ)) : ℚ :=
  (category_totals.map Prod.snd).sum

/-- One step of the analyzer loop:
`category_totals.get(category, 0) / total_balance`, a Decimal division
that raises when `total_balance` is zero. -/
def current_allocation (category_totals : List (String × ℚ)) (category : String) :
    Option ℚ :=
  safeDiv (lookupD category_totals category 0) (total_balance category_totals)

/-! ## Investment Distributor (scraper.py lines 128-161)

`cats` is the key list of the `categories` dict; `totals` and `target`
are the `category_totals` and `target_allocation` dicts, total on that
key set. -/

/-- `total_balance = Decimal(sum(category_totals.values()))` over the
category keys. -/
def current_total_balance (cats : List String) (totals : String → ℚ) : ℚ :=
  (cats.map totals).sum

/-- `get_desired_balances`: `new_total_balance = total_balance +
investment_amount`, then `desired = new_total_balance * allocation`. -/
def get_desired_balances (investment_amount tb : ℚ) (target : String → ℚ) :
    String → ℚ :=
  fun category => (tb + investment_amount) * target category

/-- `needed_investments` before capping:
`max(desired_balances[c] - category_totals[c], 0)`. -/
def needed_investments (inv : ℚ) (cats : List String) (totals target : String → ℚ) :
    String → ℚ :=
  fun category =>
    max (get_desired_balances inv (current_total_balance cats totals) target category
           - totals category) 0

/-- `total_needed = sum(needed_investments.values())`. -/
def total_needed (inv : ℚ) (cats : List String) (totals target : String → ℚ) : ℚ :=
  (cats.map (needed_investments inv cats totals target)).sum

/-- `needed_investments` after the proportional-capping branch: when
`total_needed > investment_amount`, every entry becomes
`investment_amount * (needed / total_needed)`; otherwise unchanged. -/
def needed_investments_final (inv : ℚ) (cats : List String)
    (totals target : String → ℚ) : String → ℚ :=
  if total_needed inv cats totals target > inv then
    fun category =>
      inv * (needed_investments inv cats totals target category /
        total_needed inv cats totals target)
  else needed_investments inv cats totals target

/-- `resulting_totals[c] = category_totals[c] + needed_investments[c]`. -/
def resulting_totals (inv : ℚ) (cats : List String) (totals target : String → ℚ) :
    String → ℚ :=
  fun category => totals category + needed_investments_final inv cats totals target category

/-- `resulting_total_balance = sum(resulting_totals.values())`. -/
def resulting_total_balance (inv : ℚ) (cats : List String)
    (totals target : String → ℚ) : ℚ :=
  (cats.map (resulting_totals inv cats totals target)).sum

/-- `resulting_allocations[c] = resulting_totals[c] /
resulting_total_balance`, a Decimal division that raises when the divisor
is zero. -/
def resulting_allocations (inv : ℚ) (cats : List String)
    (totals target : String → ℚ) (category : String) : Option ℚ :=
  safeDiv (resulting_totals inv cats totals target category)
    (resulting_total_balance inv cats totals target)

/-- Occurrence count of a string in a list (used to state that a symbol
belongs to exactly one category). -/
def countOcc (l : List String) (s : String) : Nat :=
  match l with
  | [] => 0
  | x :: rest => (if x = s then 1 else 0) + countOcc rest s

/-- Remove every occurrence of a string from a list. -/
def removeStr (k : String) : List String → List String
  | [] => []
  | s :: rest => if s = k then removeStr k rest else s :: removeStr k rest

/-! ## Generic list-sum helpers -/

theorem safeDiv_eq_none_iff (x y : ℚ) : safeDiv x y = none ↔ y = 0 := by
  unfold safeDiv
  split <;> simp_all

theorem sum_map_add (l : List String) (f g : String → ℚ) :
    (l.map (fun c => f c + g c)).sum = (l.map f).sum + (l.map g).sum := by
  induction l with
  | nil => simp
  | cons a t ih => simp only [List.map_cons, List.sum_cons, ih]; ring

theorem sum_map_div (l : List String) (f : String → ℚ) (t : ℚ) :
    (l.map (fun c => f c / t)).sum = (l.map f).sum / t := by
  induction l with
  | nil => simp
  | cons a r ih => simp only [List.map_cons, List.sum_cons, ih, add_div]

theorem sum_map_nonneg (l : List String) (f : String → ℚ)
    (h : ∀ c ∈ l, 0 ≤ f c) : 0 ≤ (l.map f).sum := by
  induction l with
  | nil => simp
  | cons a t ih =>
    simp only [List.map_cons, List.sum_cons]
    have ha := h a (by simp)
    have ht := ih (fun c hc => h c (by simp [hc]))
    linarith

theorem sum_map_eq_zero_of_nonneg (l : List String) (f : String → ℚ)
    (h : ∀ c ∈ l, 0 ≤ f c) (hs : (l.map f).sum ≤ 0) : ∀ c ∈ l, f c = 0 := by
  induction l with
  | nil => simp
  | cons a t ih =>
    simp only [List.map_cons, List.sum_cons] at hs
    have ha := h a (by simp)
    have ht := sum_map_nonneg t f (fun c hc => h c (by simp [hc]))
    intro c hc
    rcases List.mem_cons.1 hc with rfl | hc
    · linarith
    · exact ih (fun x hx => h x (by simp [hx])) (by linarith) c hc

theorem exists_pos_of_sum_map_pos (l : List String) (f : String → ℚ)
    (h : 0 < (l.map f).sum) : ∃ c ∈ l, 0 < f c := by
  induction l with
  | nil => simp at h
  | cons a t ih =>
    simp only [List.map_cons, List.sum_cons] at h
    by_cases ha : 0 < f a
    · exact ⟨a, by simp, ha⟩
    · have hpos : 0 < (t.map f).sum := by
        have := not_lt.1 ha; linarith
      obtain ⟨c, hc, hfc⟩ := ih hpos
      exact ⟨c, by simp [hc], hfc⟩

theorem le_sum_map (l : List String) (f : String → ℚ)
    (h : ∀ c ∈ l, 0 ≤ f c) (c : String) (hc : c ∈ l) : f c ≤ (l.map f).sum := by
  induction l with
  | nil => simp at hc
  | cons a t ih =>
    simp only [List.map_cons, List.sum_cons]
    have ht := sum_map_nonneg t f (fun x hx => h x (by simp [hx]))
    rcases List.mem_cons.1 hc with rfl | hc
    · linarith
    · have := ih (fun x hx => h x (by simp [hx])) hc
      have ha := h a (by simp)
      linarith

/-! ## Distributor helper lemmas -/

theorem needed_nonneg (inv : ℚ) (cats : List String) (totals target : String → ℚ)
    (c : String) : 0 ≤ needed_investments inv cats totals target c :=
  le_max_right _ _

theorem total_needed_nonneg (inv : ℚ) (cats : List String)
    (totals target : String → ℚ) : 0 ≤ total_needed inv cats totals target :=
  sum_map_nonneg cats _ (fun c _ => needed_nonneg inv cats totals target c)

theorem needed_final_nonneg (inv : ℚ) (cats : List String)
    (totals target : String → ℚ) (hinv : 0 ≤ inv) (c : String) :
    0 ≤ needed_investments_final inv cats totals target c := by
  by_cases h : total_needed inv cats totals target > inv
  · have ht : 0 < total_needed inv cats totals target := lt_of_le_of_lt hinv h
    simp only [needed_investments_final, if_pos h]
    exact mul_nonneg hinv
      (div_nonneg (needed_nonneg inv cats totals target c) (le_of_lt ht))
  · simp only [needed_investments_final, if_neg h]
    exact needed_nonneg inv cats totals target c

theorem sum_needed_final_scaled (inv : ℚ) (cats : List String)
    (totals target : String → ℚ) (hinv : 0 ≤ inv)
    (h : total_needed inv cats totals target > inv) :
    (cats.map (needed_investments_final inv cats totals target)).sum = inv := by
  have ht : total_needed inv cats totals target ≠ 0 :=
    ne_of_gt (lt_of_le_of_lt hinv h)
  simp only [needed_investments_final, if_pos h]
  rw [List.sum_map_mul_left, sum_map_div]
  have hsum : (cats.map (needed_investments inv cats totals target)).sum
      = total_needed inv cats totals target := rfl
  rw [hsum, div_self ht, mul_one]

theorem sum_needed_final_unscaled (inv : ℚ) (cats : List String)
    (totals target : String → ℚ)
    (h : ¬ total_needed inv cats totals target > inv) :
    (cats.map (needed_investments_final inv cats totals target)).sum
      = total_needed inv cats totals target := by
  simp only [needed_investments_final, if_neg h]
  rfl

/-- Claim C2: whenever `total_needed > investment_amount`, every needed
value is scaled by the factor `investment_amount / total_needed`, and the
scaled needed values over the category keys sum to exactly
`investment_amount` (exact rational arithmetic, so within any rounding
epsilon). -/
theorem c2_proportional_capping (inv : ℚ) (cats : List String)
    (totals target : String → ℚ) (hinv : 0 ≤ inv)
    (h : total_needed inv cats totals target > inv) :
    (∀ c, needed_investments_final inv cats totals target c
        = needed_investments inv cats totals target c
            * (inv / total_needed inv cats totals target))
    ∧ (cats.map (needed_investments_final inv cats totals target)).sum = inv := by
  constructor
  · intro c
    simp only [needed_investments_final, if_pos h]
    ring
  · exact sum_needed_final_scaled inv cats totals target hinv h

/-- Witness for C2 at the spec's capping example: totals A=0, B=900,
targets 1/2 each, investment 100 (total_needed = 500 > 100). -/
theorem c2_proportional_capping_witness :
    ((0:ℚ) ≤ 100
      ∧ total_needed 100 ["A", "B"] (fun c => if c = "A" then 0 else 900)
          (fun c => if c = "A" then 1/2 else 1/2) > 100)
    ∧ (needed_investments_final 100 ["A", "B"]
          (fun c => if c = "A" then 0 else 900)
          (fun c => if c = "A" then 1/2 else 1/2) "A"
        = needed_investments 100 ["A", "B"]
            (fun c => if c = "A" then 0 else 900)
            (fun c => if c = "A" then 1/2 else 1/2) "A"
          * (100 / total_needed 100 ["A", "B"]
              (fun c => if c = "A" then 0 else 900)
              (fun c => if c = "A" then 1/2 else 1/2))
      ∧ (["A", "B"].map (needed_investments_final 100 ["A", "B"]
          (fun c => if c = "A" then 0 else 900)
          (fun c => if c = "A" then 1/2 else 1/2))).sum = 100) := by
  have h : total_needed 100 ["A", "B"] (fun c => if c = "A" then 0 else 900)
      (fun c => if c = "A" then 1/2 else 1/2) > 100 := by
    have hba : ("B" : String) ≠ "A" := by decide
    simp only [total_needed, needed_investments, get_desired_balances,
      current_total_balance, List.map_cons, List.map_nil, List.sum_cons,
      List.sum_nil, if_pos rfl, if_neg hba]
    norm_num [max_def]
  exact ⟨⟨by norm_num, h⟩,
    (c2_proportional_capping 100 ["A", "B"] _ _ (by norm_num) h).1 "A",
    (c2_proportional_capping 100 ["A", "B"] _ _ (by norm_num) h).2⟩

/-- Claim C3: whenever `total_needed <= investment_amount`, the needed
values are left unscaled: each equals
`max(0, (current_total_balance + investment_amount) * target[c] - totals[c])`
exactly, and the distributed sum is at most the investment amount (it may
fall short). -/
theorem c3_unscaled_needed (inv : ℚ) (cats : List String)
    (totals target : String → ℚ) (_hinv : 0 ≤ inv)
    (h : total_needed inv cats totals target ≤ inv) :
    (∀ c, needed_investments_final inv cats totals target c
        = max 0 ((current_total_balance cats totals + inv) * target c - totals c))
    ∧ (cats.map (needed_investments_final inv cats totals target)).sum ≤ inv := by
  have hn : ¬ total_needed inv cats totals target > inv := not_lt.2 h
  constructor
  · intro c
    simp only [needed_investments_final, if_neg hn, needed_investments,
      get_desired_balances]
    exact max_comm _ _
  · rw [sum_needed_final_unscaled inv cats totals target hn]
    exact h

/-- Witness for C3 at the spec's example: totals Stocks=6000, Bonds=4000,
targets 1/2 each, investment 2000 (total_needed = 2000 = investment). -/
theorem c3_unscaled_needed_witness :
    ((0:ℚ) ≤ 2000
      ∧ total_needed 2000 ["Stocks", "Bonds"]
          (fun c => if c = "Stocks" then 6000 else 4000)
          (fun c => if c = "Stocks" then 1/2 else 1/2) ≤ 2000)
    ∧ (needed_investments_final 2000 ["Stocks", "Bonds"]
          (fun c => if c = "Stocks" then 6000 else 4000)
          (fun c => if c = "Stocks" then 1/2 else 1/2) "Bonds"
        = max 0 ((current_total_balance ["Stocks", "Bonds"]
              (fun c => if c = "Stocks" then 6000 else 4000) + 2000)
            * (fun c => if c = "Stocks" then (1:ℚ)/2 else 1/2) "Bonds"
            - (fun c => if c = "Stocks" then (6000:ℚ) else 4000) "Bonds")
      ∧ (["Stocks", "Bonds"].map (needed_investments_final 2000 ["Stocks", "Bonds"]
          (fun c => if c = "Stocks" then 6000 else 4000)
          (fun c => if c = "Stocks" then 1/2 else 1/2))).sum ≤ 2000) := by
  have h : total_needed 2000 ["Stocks", "Bonds"]
      (fun c => if c = "Stocks" then 6000 else 4000)
      (fun c => if c = "Stocks" then 1/2 else 1/2) ≤ 2000 := by
    have hbs : ("Bonds" : String) ≠ "Stocks" := by decide
    simp only [total_needed, needed_investments, get_desired_balances,
      current_total_balance, List.map_cons, List.map_nil, List.sum_cons,
      List.sum_nil, if_pos rfl, if_neg hbs]
    norm_num [max_def]
  exact ⟨⟨by norm_num, h⟩,
    (c3_unscaled_needed 2000 ["Stocks", "Bonds"] _ _ (by norm_num) h).1 "Bonds",
    (c3_unscaled_needed 2000 ["Stocks", "Bonds"] _ _ (by norm_num) h).2⟩

/-- The final needed investments all vanish when the investment is 0:
either the capping branch multiplies by 0, or the unscaled needs have a
nonpositive sum and are individually nonnegative. -/
theorem needed_final_zero_inv (cats : List String) (totals target : String → ℚ) :
    ∀ c ∈ cats, needed_investments_final 0 cats totals target c = 0 := by
  intro c hc
  by_cases h : total_needed 0 cats totals target > 0
  · simp only [needed_investments_final, if_pos h, zero_mul]
  · simp only [needed_investments_final, if_neg h]
    exact sum_map_eq_zero_of_nonneg cats _
      (fun x _ => needed_nonneg 0 cats totals target x) (not_lt.1 h) c hc

/-- Claim C4: with `investment_amount = 0` the distributor recommends 0
for every category and leaves every category total unchanged. -/
theorem c4_zero_investment_identity (cats : List String)
    (totals target : String → ℚ) :
    ∀ c ∈ cats, needed_investments_final 0 cats totals target c = 0
      ∧ resulting_totals 0 cats totals target c = totals c := by
  intro c hc
  have hz := needed_final_zero_inv cats totals target c hc
  exact ⟨hz, by simp [resulting_totals, hz]⟩

/-- Witness for C4 at totals A=100, B=200, targets 1/2 each. -/
theorem c4_zero_investment_identity_witness :
    "A" ∈ ["A", "B"]
    ∧ needed_investments_final 0 ["A", "B"]
        (fun c => if c = "A" then 100 else 200)
        (fun c => if c = "A" then 1/2 else 1/2) "A" = 0
    ∧ resulting_totals 0 ["A", "B"]
        (fun c => if c = "A" then 100 else 200)
        (fun c => if c = "A" then 1/2 else 1/2) "A"
      = (fun c => if c = "A" then (100:ℚ) else 200) "A" :=
  ⟨by decide,
    (c4_zero_investment_identity ["A", "B"] _
        (fun c => if c = "A" then 1/2 else 1/2) "A" (by decide)).1,
    (c4_zero_investment_identity ["A", "B"] _
        (fun c => if c = "A" then 1/2 else 1/2) "A" (by decide)).2⟩

/-- Claim C8: in the proportional-capping branch the divisor
`total_needed` is nonzero: `total_needed > investment_amount >= 0` forces
`total_needed > 0`, so every division `needed / total_needed` is defined. -/
theorem c8_capping_divisor_nonzero (inv : ℚ) (cats : List String)
    (totals target : String → ℚ) (hinv : 0 ≤ inv)
    (h : total_needed inv cats totals target > inv) :
    total_needed inv cats totals target ≠ 0
    ∧ ∀ c, (safeDiv (needed_investments inv cats totals target c)
        (total_needed inv cats totals target)).isSome := by
  have ht : total_needed inv cats totals target ≠ 0 :=
    ne_of_gt (lt_of_le_of_lt hinv h)
  exact ⟨ht, fun c => by simp [safeDiv, ht]⟩

/-- Witness for C8 at the capping example of C2. -/
theorem c8_capping_divisor_nonzero_witness :
    ((0:ℚ) ≤ 100
      ∧ total_needed 100 ["A", "B"] (fun c => if c = "A" then 0 else 900)
          (fun c => if c = "A" then 1/2 else 1/2) > 100)
    ∧ (total_needed 100 ["A", "B"] (fun c => if c = "A" then 0 else 900)
          (fun c => if c = "A" then 1/2 else 1/2) ≠ 0
      ∧ (safeDiv (needed_investments 100 ["A", "B"]
            (fun c => if c = "A" then 0 else 900)
            (fun c => if c = "A" then 1/2 else 1/2) "A")
          (total_needed 100 ["A", "B"] (fun c => if c = "A" then 0 else 900)
            (fun c => if c = "A" then 1/2 else 1/2))).isSome) := by
  have h : total_needed 100 ["A", "B"] (fun c => if c = "A" then 0 else 900)
      (fun c => if c = "A" then 1/2 else 1/2) > 100 := by
    have hba : ("B" : String) ≠ "A" := by decide
    simp only [total_needed, needed_investments, get_desired_balances,
      current_total_balance, List.map_cons, List.map_nil, List.sum_cons,
      List.sum_nil, if_pos rfl, if_neg hba]
    norm_num [max_def]
  exact ⟨⟨by norm_num, h⟩,
    (c8_capping_divisor_nonzero 100 ["A", "B"] _ _ (by norm_num) h).1,
    (c8_capping_divisor_nonzero 100 ["A", "B"] _ _ (by norm_num) h).2 "A"⟩

/-- Claim C9: with a nonnegative investment every needed value is
nonnegative before and after scaling, so every resulting total is at
least the current total: the distributor never withdraws. -/
theorem c9_never_withdraws (inv : ℚ) (cats : List String)
    (totals target : String → ℚ) (hinv : 0 ≤ inv) :
    ∀ c, 0 ≤ needed_investments inv cats totals target c
      ∧ 0 ≤ needed_investments_final inv cats totals target c
      ∧ totals c ≤ resulting_totals inv cats totals target c := by
  intro c
  refine ⟨needed_nonneg _ _ _ _ c, needed_final_nonneg _ _ _ _ hinv c, ?_⟩
  have h := needed_final_nonneg inv cats totals target hinv c
  simp only [resulting_totals]
  linarith

/-- Witness for C9 at the capping example, category A. -/
theorem c9_never_withdraws_witness :
    (0:ℚ) ≤ 100
    ∧ (0 ≤ needed_investments 100 ["A", "B"]
        (fun c => if c = "A" then 0 else 900)
        (fun c => if c = "A" then 1/2 else 1/2) "A"
      ∧ 0 ≤ needed_investments_final 100 ["A", "B"]
          (fun c => if c = "A" then 0 else 900)
          (fun c => if c = "A" then 1/2 else 1/2) "A"
      ∧ (fun c => if c = "A" then (0:ℚ) else 900) "A"
          ≤ resulting_totals 100 ["A", "B"]
              (fun c => if c = "A" then 0 else 900)
              (fun c => if c = "A" then 1/2 else 1/2) "A") :=
  ⟨by norm_num,
    c9_never_withdraws 100 ["A", "B"] _ _ (by norm_num) "A"⟩

/-- The resulting total balance splits as current total balance plus the
sum of the final needed investments. -/
theorem resulting_sum_split (inv : ℚ) (cats : List String)
    (totals target : String → ℚ) :
    resulting_total_balance inv cats totals target
      = current_total_balance cats totals
        + (cats.map (needed_investments_final inv cats totals target)).sum := by
  simp only [resulting_total_balance, resulting_totals, current_total_balance]
  exact sum_map_add cats totals _

/-- Under the documented data model (nonnegative totals, nonnegative
investment, target fractions summing to 1) the resulting total balance
is zero exactly when every current total is zero and the investment is
zero. -/
theorem resulting_total_eq_zero_iff (inv : ℚ) (cats : List String)
    (totals target : String → ℚ) (hc : ∀ c ∈ cats, 0 ≤ totals c) (hinv : 0 ≤ inv)
    (htarget : (cats.map target).sum = 1) :
    resulting_total_balance inv cats totals target = 0
      ↔ (∀ c ∈ cats, totals c = 0) ∧ inv = 0 := by
  constructor
  · intro h0
    rw [resulting_sum_split] at h0
    have h1 : 0 ≤ current_total_balance cats totals := sum_map_nonneg cats totals hc
    have h2 : 0 ≤ (cats.map (needed_investments_final inv cats totals target)).sum :=
      sum_map_nonneg cats _ (fun c _ => needed_final_nonneg inv cats totals target hinv c)
    have hcb : current_total_balance cats totals = 0 := by linarith
    have hnf : (cats.map (needed_investments_final inv cats totals target)).sum = 0 := by
      linarith
    have hz : ∀ c ∈ cats, totals c = 0 :=
      sum_map_eq_zero_of_nonneg cats totals hc (le_of_eq hcb)
    refine ⟨hz, ?_⟩
    by_contra hne
    have hpos : 0 < inv := lt_of_le_of_ne hinv (Ne.symm hne)
    obtain ⟨c0, hc0, ht0⟩ := exists_pos_of_sum_map_pos cats target
      (by rw [htarget]; norm_num)
    have hd : needed_investments inv cats totals target c0
        = max ((current_total_balance cats totals + inv) * target c0 - totals c0) 0 :=
      rfl
    have hneed : 0 < needed_investments inv cats totals target c0 := by
      rw [hd, hcb, hz c0 hc0]
      have hmul : 0 < (0 + inv) * target c0 - 0 := by
        have := mul_pos hpos ht0
        linarith
      exact lt_max_of_lt_left hmul
    have htot : 0 < total_needed inv cats totals target :=
      lt_of_lt_of_le hneed
        (le_sum_map cats _ (fun x _ => needed_nonneg inv cats totals target x) c0 hc0)
    by_cases hbr : total_needed inv cats totals target > inv
    · have hs := sum_needed_final_scaled inv cats totals target hinv hbr
      rw [hs] at hnf
      exact absurd hnf (ne_of_gt hpos)
    · have hs := sum_needed_final_unscaled inv cats totals target hbr
      rw [hs] at hnf
      exact absurd hnf (ne_of_gt htot)
  · rintro ⟨hz, rfl⟩
    rw [resulting_sum_split]
    have hcb : current_total_balance cats totals = 0 := by
      apply List.sum_eq_zero
      intro x hx
      obtain ⟨c, hcmem, rfl⟩ := List.mem_map.1 hx
      exact hz c hcmem
    have hnf : (cats.map (needed_investments_final 0 cats totals target)).sum = 0 := by
      apply List.sum_eq_zero
      intro x hx
      obtain ⟨c, hcmem, rfl⟩ := List.mem_map.1 hx
      exact needed_final_zero_inv cats totals target c hcmem
    rw [hcb, hnf, add_zero]

/-- Claim C1: computing a resulting allocation fails (the Decimal
division raises) exactly when the resulting total balance is 0, and —
under the documented data model (nonnegative totals, nonnegative
investment, target fractions summing to 1) — that balance is 0 exactly
when every current total is 0 and the investment is 0. -/
theorem c1_resulting_allocation_failure (inv : ℚ) (cats : List String)
    (totals target : String → ℚ) (hc : ∀ c ∈ cats, 0 ≤ totals c) (hinv : 0 ≤ inv)
    (htarget : (cats.map target).sum = 1) :
    ((∃ c ∈ cats, resulting_allocations inv cats totals target c = none)
        ↔ resulting_total_balance inv cats totals target = 0)
    ∧ (resulting_total_balance inv cats totals target = 0
        ↔ (∀ c ∈ cats, totals c = 0) ∧ inv = 0) := by
  have hne : cats ≠ [] := by
    rintro rfl
    norm_num at htarget
  constructor
  · constructor
    · rintro ⟨c, hcin, hnone⟩
      exact (safeDiv_eq_none_iff _ _).1 hnone
    · intro h0
      obtain ⟨c, hcin⟩ := List.exists_mem_of_ne_nil cats hne
      exact ⟨c, hcin, by simp [resulting_allocations, safeDiv, h0]⟩
  · exact resulting_total_eq_zero_iff inv cats totals target hc hinv htarget

/-- Witness for C1 at totals A=3, B=5, targets 1/2 each, investment 2. -/
theorem c1_resulting_allocation_failure_witness :
    ((∀ c ∈ ["A", "B"], (0:ℚ) ≤ (fun c => if c = "A" then (3:ℚ) else 5) c)
      ∧ (0:ℚ) ≤ 2
      ∧ (["A", "B"].map (fun c => if c = "A" then (1:ℚ)/2 else 1/2)).sum = 1)
    ∧ (((∃ c ∈ ["A", "B"], resulting_allocations 2 ["A", "B"]
            (fun c => if c = "A" then (3:ℚ) else 5)
            (fun c => if c = "A" then (1:ℚ)/2 else 1/2) c = none)
        ↔ resulting_total_balance 2 ["A", "B"]
            (fun c => if c = "A" then (3:ℚ) else 5)
            (fun c => if c = "A" then (1:ℚ)/2 else 1/2) = 0)
      ∧ (resulting_total_balance 2 ["A", "B"]
            (fun c => if c = "A" then (3:ℚ) else 5)
            (fun c => if c = "A" then (1:ℚ)/2 else 1/2) = 0
        ↔ (∀ c ∈ ["A", "B"], (fun c => if c = "A" then (3:ℚ) else 5) c = 0)
            ∧ (2:ℚ) = 0)) := by
  have hc : ∀ c ∈ ["A", "B"], (0:ℚ) ≤ (fun c => if c = "A" then (3:ℚ) else 5) c := by
    intro c hcin
    by_cases h : c = "A" <;> simp [h]
  have ht : (["A", "B"].map (fun c => if c = "A" then (1:ℚ)/2 else 1/2)).sum = 1 := by
    have hba : ("B" : String) ≠ "A" := by decide
    simp only [List.map_cons, List.map_nil, List.sum_cons, List.sum_nil,
      if_pos rfl, if_neg hba]
    norm_num
  exact ⟨⟨hc, by norm_num, ht⟩,
    c1_resulting_allocation_failure 2 ["A", "B"] _ _ hc (by norm_num) ht⟩

/-- Claim C5: the analyzer's per-category division
`category_totals.get(category, 0) / total_balance` fails (the Decimal
division raises) for every category whenever the grand total is 0. -/
theorem c5_analyzer_division_by_zero (category_totals : List (String × ℚ))
    (h : total_balance category_totals = 0) :
    ∀ category, current_allocation category_totals category = none := by
  intro category
  simp [current_allocation, safeDiv, h]

/-- Witness for C5 on a one-category portfolio with a zero balance. -/
theorem c5_analyzer_division_by_zero_witness :
    total_balance [("A", 0)] = 0 ∧ current_allocation [("A", 0)] "A" = none :=
  ⟨by simp [total_balance],
    c5_analyzer_division_by_zero [("A", 0)] (by simp [total_balance]) "A"⟩

/-! ## Aggregator lemmas -/

theorem updateAdd_keys (m : List (String × ℚ)) (k : String) (v : ℚ) :
    (updateAdd m k v).map Prod.fst = m.map Prod.fst := by
  simp only [updateAdd, List.map_map]
  apply List.map_congr_left
  intro p _
  by_cases h : p.1 = k <;> simp [Function.comp, h]

theorem updateAdd_not_mem (m : List (String × ℚ)) (k : String) (v : ℚ)
    (h : k ∉ m.map Prod.fst) : updateAdd m k v = m := by
  induction m with
  | nil => rfl
  | cons p t ih =>
    simp only [List.map_cons, List.mem_cons, not_or] at h
    have h1 : ¬ (p.1 = k) := fun he => h.1 he.symm
    show (if p.1 = k then (p.1, p.2 + v) else p) :: updateAdd t k v = p :: t
    rw [if_neg h1, ih h.2]

theorem updateAdd_append (a b : List (String × ℚ)) (k : String) (v : ℚ) :
    updateAdd (a ++ b) k v = updateAdd a k v ++ updateAdd b k v := by
  simp [updateAdd]

theorem updateAdd_updateAdd (m : List (String × ℚ)) (k : String) (v w : ℚ) :
    updateAdd (updateAdd m k v) k w = updateAdd m k (v + w) := by
  simp only [updateAdd, List.map_map]
  apply List.map_congr_left
  intro p _
  by_cases h : p.1 = k <;> simp [Function.comp, h, add_assoc]

theorem updateAdd_zero (m : List (String × ℚ)) (k : String) :
    updateAdd m k 0 = m := by
  unfold updateAdd
  have h : ∀ p ∈ m, (if p.1 = k then (p.1, p.2 + 0) else p) = p := by
    intro p _
    by_cases hp : p.1 = k
    · rw [if_pos hp, add_zero]
    · rw [if_neg hp]
  simp [List.map_congr_left h]

/-- The inner loop of `get_category_totals` adds, at one key, the sum of
the looked-up symbol balances. -/
theorem foldl_updateAdd_const_key (syms : List String) (k : String)
    (f : String → ℚ) (acc : List (String × ℚ)) :
    syms.foldl (fun a s => updateAdd a k (f s)) acc
      = updateAdd acc k ((syms.map f).sum) := by
  induction syms generalizing acc with
  | nil => simp [updateAdd_zero]
  | cons s t ih =>
    simp only [List.foldl_cons, List.map_cons, List.sum_cons]
    rw [ih, updateAdd_updateAdd]

/-- The outer loop of `get_category_totals`, generalized over an already
processed prefix whose keys are disjoint from the remaining categories. -/
theorem foldl_aggregate (b : List (String × ℚ)) (l : List (String × List String))
    (pre : List (String × ℚ))
    (hdisj : ∀ p ∈ l, p.1 ∉ pre.map Prod.fst)
    (hnd : (l.map Prod.fst).Nodup) :
    l.foldl (fun acc p => p.2.foldl (fun a s => updateAdd a p.1 (lookupD b s 0)) acc)
        (pre ++ l.map (fun p => (p.1, (0:ℚ))))
      = pre ++ l.map (fun p => (p.1, (p.2.map (fun s => lookupD b s 0)).sum)) := by
  induction l generalizing pre with
  | nil => simp
  | cons p t ih =>
    have hnd1 : p.1 ∉ t.map Prod.fst ∧ (t.map Prod.fst).Nodup := by
      rw [List.map_cons, List.nodup_cons] at hnd
      exact hnd
    simp only [List.foldl_cons, List.map_cons]
    rw [foldl_updateAdd_const_key]
    have hsplit : pre ++ (p.1, (0:ℚ)) :: t.map (fun q => (q.1, (0:ℚ)))
        = pre ++ [(p.1, (0:ℚ))] ++ t.map (fun q => (q.1, (0:ℚ))) := by
      rw [List.append_cons]
    rw [hsplit, updateAdd_append, updateAdd_append]
    have hpre : updateAdd pre p.1 ((p.2.map (fun s => lookupD b s 0)).sum) = pre :=
      updateAdd_not_mem pre p.1 _ (hdisj p (by simp))
    have hone : updateAdd [(p.1, (0:ℚ))] p.1 ((p.2.map (fun s => lookupD b s 0)).sum)
        = [(p.1, (p.2.map (fun s => lookupD b s 0)).sum)] := by
      unfold updateAdd
      rw [List.map_cons, List.map_nil, if_pos rfl, zero_add]
    have htail : updateAdd (t.map (fun q => (q.1, (0:ℚ)))) p.1
        ((p.2.map (fun s => lookupD b s 0)).sum) = t.map (fun q => (q.1, (0:ℚ))) := by
      apply updateAdd_not_mem
      simp only [List.map_map]
      simpa [Function.comp] using hnd1.1
    rw [hpre, hone, htail]
    have hstep := ih (pre ++ [(p.1, (p.2.map (fun s => lookupD b s 0)).sum)])
      (by
        intro q hq
        have h1 : q.1 ∉ pre.map Prod.fst := hdisj q (by simp [hq])
        have h2 : q.1 ≠ p.1 := fun he => hnd1.1 (he ▸ List.mem_map_of_mem Prod.fst hq)
        simp [List.map_append, h1, h2])
      hnd1.2
    rw [List.append_assoc] at hstep
    simpa using hstep

/-- Under distinct category keys `get_category_totals` is the per-category
map of summed symbol lookups. -/
theorem get_category_totals_eq (b : List (String × ℚ))
    (categories : List (String × List String))
    (hnd : (categories.map Prod.fst).Nodup) :
    get_category_totals b categories
      = categories.map (fun p => (p.1, (p.2.map (fun s => lookupD b s 0)).sum)) := by
  have h := foldl_aggregate b categories [] (by simp) hnd
  simpa [get_category_totals] using h

/-- Lookup of a present key in a key-tagged map, under distinct keys. -/
theorem lookupOpt_map_self (l : List (String × List String))
    (g : String × List String → ℚ) (hnd : (l.map Prod.fst).Nodup)
    (p : String × List String) (hp : p ∈ l) :
    lookupOpt (l.map (fun q => (q.1, g q))) p.1 = some (g p) := by
  induction l with
  | nil => simp at hp
  | cons q t ih =>
    have hnd1 : q.1 ∉ t.map Prod.fst ∧ (t.map Prod.fst).Nodup := by
      rw [List.map_cons, List.nodup_cons] at hnd
      exact hnd
    rcases List.mem_cons.1 hp with rfl | hp2
    · simp [lookupOpt]
    · have hne : p.1 ≠ q.1 := by
        intro he
        exact hnd1.1 (he ▸ List.mem_map_of_mem Prod.fst hp2)
      simp only [List.map_cons, lookupOpt, if_neg hne]
      exact ih hnd1.2 hp2

/-- Claim C6: under distinct category keys the aggregator keeps every
category key (so a category is never omitted), each total is the sum of
`balances.get(symbol, 0)` over the category's symbols (0 when no symbol
matches), and a symbol absent from the balances contributes 0. -/
theorem c6_aggregator_totals (b : List (String × ℚ))
    (categories : List (String × List String))
    (hnd : (categories.map Prod.fst).Nodup) :
    ((get_category_totals b categories).map Prod.fst = categories.map Prod.fst)
    ∧ (∀ p ∈ categories,
        lookupOpt (get_category_totals b categories) p.1
          = some ((p.2.map (fun s => lookupD b s 0)).sum))
    ∧ (∀ p ∈ categories, (∀ s ∈ p.2, lookupOpt b s = none) →
        lookupOpt (get_category_totals b categories) p.1 = some 0)
    ∧ (∀ s, lookupOpt b s = none → lookupD b s 0 = 0) := by
  rw [get_category_totals_eq b categories hnd]
  refine ⟨?_, ?_, ?_, ?_⟩
  · simp [List.map_map, Function.comp]
  · intro p hp
    exact lookupOpt_map_self categories _ hnd p hp
  · intro p hp habs
    rw [lookupOpt_map_self categories _ hnd p hp]
    congr 1
    apply List.sum_eq_zero
    intro x hx
    obtain ⟨s, hs, rfl⟩ := List.mem_map.1 hx
    simp [lookupD, habs s hs]
  · intro s hnone
    simp [lookupD, hnone]

/-- Witness for C6: balances VTI=10, categories Stocks=[VTI], Bonds=[]. -/
theorem c6_aggregator_totals_witness :
    ((([("Stocks", ["VTI"]), ("Bonds", [])] :
          List (String × List String)).map Prod.fst).Nodup)
    ∧ ((get_category_totals [("VTI", 10)]
          [("Stocks", ["VTI"]), ("Bonds", [])]).map Prod.fst
        = [("Stocks", ["VTI"]), ("Bonds", [])].map Prod.fst)
    ∧ lookupOpt (get_category_totals [("VTI", 10)]
          [("Stocks", ["VTI"]), ("Bonds", [])]) "Stocks"
        = some ((["VTI"].map (fun s => lookupD [("VTI", 10)] s 0)).sum)
    ∧ lookupOpt (get_category_totals [("VTI", 10)]
          [("Stocks", ["VTI"]), ("Bonds", [])]) "Bonds" = some 0 := by
  have hnd : (([("Stocks", ["VTI"]), ("Bonds", [])] :
      List (String × List String)).map Prod.fst).Nodup := by decide
  have h := c6_aggregator_totals [("VTI", 10)] [("Stocks", ["VTI"]), ("Bonds", [])] hnd
  refine ⟨hnd, h.1, ?_, ?_⟩
  · exact h.2.1 ("Stocks", ["VTI"]) (by simp)
  · exact h.2.2.1 ("Bonds", []) (by simp) (by simp)

/-! ## Conservation-of-balance lemmas -/

theorem lookupD_cons (p : String × ℚ) (m : List (String × ℚ)) (s : String) (d : ℚ) :
    lookupD (p :: m) s d = if s = p.1 then p.2 else lookupD m s d := by
  simp only [lookupD, lookupOpt]
  by_cases h : s = p.1 <;> simp [h]

theorem countOcc_removeStr (l : List String) (k s : String) (h : s ≠ k) :
    countOcc (removeStr k l) s = countOcc l s := by
  induction l with
  | nil => rfl
  | cons x t ih =>
    by_cases hx : x = k
    · subst hx
      have hxs : ¬ (x = s) := fun he => h (he ▸ rfl)
      simp [removeStr, countOcc, hxs, ih]
    · simp [removeStr, hx, countOcc, ih]

theorem sum_map_ite_key (l : List String) (k : String) (v : ℚ) (g : String → ℚ) :
    (l.map (fun s => if s = k then v else g s)).sum
      = (countOcc l k : ℚ) * v + ((removeStr k l).map g).sum := by
  induction l with
  | nil => simp [countOcc, removeStr]
  | cons x t ih =>
    by_cases hx : x = k
    · subst hx
      simp only [List.map_cons, List.sum_cons, if_pos rfl, countOcc, removeStr, ih]
      push_cast
      ring
    · simp only [List.map_cons, List.sum_cons, if_neg hx, countOcc, removeStr, ih,
        if_neg hx]
      push_cast
      ring

/-- Summing `b.get(s, 0)` over a symbol list in which each key of `b`
occurs exactly once gives the sum of the balances of `b`. -/
theorem sum_lookupD_of_count_one (b : List (String × ℚ)) (l : List String)
    (hnd : (b.map Prod.fst).Nodup) (h1 : ∀ p ∈ b, countOcc l p.1 = 1) :
    (l.map (fun s => lookupD b s 0)).sum = (b.map Prod.snd).sum := by
  induction b generalizing l with
  | nil =>
    simp only [List.map_nil, List.sum_nil]
    apply List.sum_eq_zero
    intro x hx
    obtain ⟨s, _, rfl⟩ := List.mem_map.1 hx
    rfl
  | cons p t ih =>
    have hnd1 : p.1 ∉ t.map Prod.fst ∧ (t.map Prod.fst).Nodup := by
      rw [List.map_cons, List.nodup_cons] at hnd
      exact hnd
    have hmap : l.map (fun s => lookupD (p :: t) s 0)
        = l.map (fun s => if s = p.1 then p.2 else lookupD t s 0) :=
      List.map_congr_left (fun s _ => lookupD_cons p t s 0)
    rw [hmap, sum_map_ite_key, h1 p (by simp), Nat.cast_one, one_mul]
    rw [ih (removeStr p.1 l) hnd1.2 ?_]
    · simp
    · intro q hq
      have hne : q.1 ≠ p.1 := by
        intro he
        exact hnd1.1 (he ▸ List.mem_map_of_mem Prod.fst hq)
      rw [countOcc_removeStr l p.1 q.1 hne]
      exact h1 q (by simp [hq])

/-- Per-category sums of symbol lookups flatten into one sum over all
listed symbol occurrences. -/
theorem sum_map_sum_eq_flatten (categories : List (String × List String))
    (f : String → ℚ) :
    (categories.map (fun p => (p.2.map f).sum)).sum
      = (((categories.map Prod.snd).flatten).map f).sum := by
  induction categories with
  | nil => simp
  | cons p t ih => simp [ih]

/-- Claim C7: when the keys of the balances and categories are distinct
and every symbol of the balances occurs exactly once across all category
symbol lists, the aggregator conserves the total balance. -/
theorem c7_conservation (b : List (String × ℚ))
    (categories : List (String × List String))
    (hndc : (categories.map Prod.fst).Nodup) (hndb : (b.map Prod.fst).Nodup)
    (h1 : ∀ p ∈ b, countOcc ((categories.map Prod.snd).flatten) p.1 = 1) :
    ((get_category_totals b categories).map Prod.snd).sum
      = (b.map Prod.snd).sum := by
  rw [get_category_totals_eq b categories hndc, List.map_map]
  have hcomp : (categories.map
        (Prod.snd ∘ fun p => (p.1, (p.2.map (fun s => lookupD b s 0)).sum))).sum
      = (categories.map (fun p => (p.2.map (fun s => lookupD b s 0)).sum)).sum := rfl
  rw [hcomp, sum_map_sum_eq_flatten]
  exact sum_lookupD_of_count_one b _ hndb h1

/-- Witness for C7: balances VTI=7, BND=3; Stocks=[VTI], Bonds=[BND]. -/
theorem c7_conservation_witness :
    ((([("Stocks", ["VTI"]), ("Bonds", ["BND"])] :
          List (String × List String)).map Prod.fst).Nodup
      ∧ (([("VTI", (7:ℚ)), ("BND", 3)].map Prod.fst).Nodup)
      ∧ (∀ p ∈ [("VTI", (7:ℚ)), ("BND", 3)],
          countOcc (([("Stocks", ["VTI"]), ("Bonds", ["BND"])] :
              List (String × List String)).map Prod.snd).flatten p.1 = 1))
    ∧ ((get_category_totals [("VTI", 7), ("BND", 3)]
          [("Stocks", ["VTI"]), ("Bonds", ["BND"])]).map Prod.snd).sum
        = ([("VTI", (7:ℚ)), ("BND", 3)].map Prod.snd).sum := by
  have hndc : (([("Stocks", ["VTI"]), ("Bonds", ["BND"])] :
      List (String × List String)).map Prod.fst).Nodup := by decide
  have hndb : (([("VTI", (7:ℚ)), ("BND", 3)]).map Prod.fst).Nodup := by
    decide
  have h1 : ∀ p ∈ [("VTI", (7:ℚ)), ("BND", 3)],
      countOcc (([("Stocks", ["VTI"]), ("Bonds", ["BND"])] :
          List (String × List String)).map Prod.snd).flatten p.1 = 1 := by
    intro p hp
    rcases List.mem_cons.1 hp with rfl | hp2
    · decide
    · rcases List.mem_cons.1 hp2 with rfl | hp3
      · decide
      · simp at hp3
  exact ⟨⟨hndc, hndb, h1⟩,
    c7_conservation [("VTI", 7), ("BND", 3)]
      [("Stocks", ["VTI"]), ("Bonds", ["BND"])] hndc hndb h1⟩

/-! ## Balance loader lemmas -/

/-- The loop is compositional over a block of rows containing no empty
row. -/
theorem get_balance_rows_append (cash : String) (parse : String → ℚ)
    (a b : List (List String)) (acc : List (String × ℚ)) (ha : [] ∉ a) :
    get_balance_rows cash parse (a ++ b) acc
      = get_balance_rows cash parse b (get_balance_rows cash parse a acc) := by
  induction a generalizing acc with
  | nil => rfl
  | cons r t ih =>
    have hr : ¬ (r = []) := fun he => ha (by simp [he])
    have ht : [] ∉ t := fun hm => ha (by simp [hm])
    simp only [List.cons_append, get_balance_rows]
    rw [if_neg hr, if_neg hr]
    by_cases hc : r.getD 2 "" = cash
    · rw [if_pos hc, if_pos hc]
      exact ih _ ht
    · rw [if_neg hc, if_neg hc]
      exact ih _ ht

/-- The loop ignores everything after the first empty row. -/
theorem get_balance_rows_stop_empty (cash : String) (parse : String → ℚ)
    (p s : List (List String)) (acc : List (String × ℚ)) :
    get_balance_rows cash parse (p ++ [] :: s) acc
      = get_balance_rows cash parse (p ++ [[]]) acc := by
  induction p generalizing acc with
  | nil => simp [get_balance_rows]
  | cons r t ih =>
    by_cases hr : r = []
    · subst hr
      simp [get_balance_rows]
    · simp only [List.cons_append, get_balance_rows]
      rw [if_neg hr, if_neg hr]
      by_cases hc : r.getD 2 "" = cash
      · rw [if_pos hc, if_pos hc]
        exact ih _
      · rw [if_neg hc, if_neg hc]
        exact ih _

theorem lookupOpt_overwrite (m : List (String × ℚ)) (k : String) (v : ℚ)
    (h : (lookupOpt m k).isSome) :
    lookupOpt (m.map (fun p => if p.1 = k then (k, v) else p)) k = some v := by
  induction m with
  | nil => simp [lookupOpt] at h
  | cons p t ih =>
    by_cases hp : p.1 = k
    · simp [List.map_cons, if_pos hp, lookupOpt]
    · have hk : ¬ (k = p.1) := fun he => hp he.symm
      simp only [List.map_cons, if_neg hp, lookupOpt, if_neg hk]
      apply ih
      simpa [lookupOpt, if_neg hk] using h

theorem lookupOpt_append_new (m : List (String × ℚ)) (k : String) (v : ℚ)
    (h : lookupOpt m k = none) :
    lookupOpt (m ++ [(k, v)]) k = some v := by
  induction m with
  | nil => simp [lookupOpt]
  | cons p t ih =>
    by_cases hp : k = p.1
    · rw [show lookupOpt (p :: t) k = if k = p.1 then some p.2 else lookupOpt t k
        from rfl, if_pos hp] at h
      simp at h
    · rw [show lookupOpt (p :: t) k = if k = p.1 then some p.2 else lookupOpt t k
        from rfl, if_neg hp] at h
      show lookupOpt (p :: (t ++ [(k, v)])) k = some v
      rw [show lookupOpt (p :: (t ++ [(k, v)])) k
          = if k = p.1 then some p.2 else lookupOpt (t ++ [(k, v)]) k from rfl,
        if_neg hp]
      exact ih h

/-- Python dict assignment: the assigned key maps to the new value. -/
theorem lookupOpt_dictInsert_self (m : List (String × ℚ)) (k : String) (v : ℚ) :
    lookupOpt (dictInsert m k v) k = some v := by
  unfold dictInsert
  split
  · apply lookupOpt_overwrite
    assumption
  · rename_i h
    exact lookupOpt_append_new m k v (Option.not_isSome_iff_eq_none.1 h)

/-- Claim C10: the loader stops at the first empty row (rows after it
never affect the result), processed rows whose symbol is the cash symbol
VMFXX are skipped, and when a symbol recurs the last processed row's
balance wins (the balance of a final recurring row is the one looked
up). -/
theorem c10_balance_loader (parse : String → ℚ) :
    (∀ (hdr : List String) (p s : List (List String)),
        get_balance_dictionary parse (hdr :: (p ++ [] :: s))
          = get_balance_dictionary parse (hdr :: (p ++ [[]])))
    ∧ (∀ (row : List String) (rest : List (List String)) (acc : List (String × ℚ)),
        row ≠ [] → row.getD 2 "" = "VMFXX" →
          get_balance_rows "VMFXX" parse (row :: rest) acc
            = get_balance_rows "VMFXX" parse rest acc)
    ∧ (∀ (rows : List (List String)) (row : List String) (acc : List (String × ℚ)),
        [] ∉ rows → row ≠ [] → row.getD 2 "" ≠ "VMFXX" →
          lookupOpt (get_balance_rows "VMFXX" parse (rows ++ [row]) acc)
            (row.getD 2 "") = some (parse (row.getD 5 ""))) := by
  refine ⟨?_, ?_, ?_⟩
  · intro hdr p s
    simp only [get_balance_dictionary, List.drop_succ_cons, List.drop_zero]
    exact get_balance_rows_stop_empty "VMFXX" parse p s []
  · intro row rest acc h1 h2
    simp only [get_balance_rows]
    rw [if_neg h1, if_pos h2]
  · intro rows row acc hmem h1 h2
    rw [get_balance_rows_append "VMFXX" parse rows [row] _ hmem]
    simp only [get_balance_rows]
    rw [if_neg h1, if_neg h2]
    exact lookupOpt_dictInsert_self _ _ _

/-- Witness for C10 with one-letter cell padding rows: a row after an
empty row is dropped, a VMFXX row is skipped, and a repeated symbol takes
the final row's parsed balance. -/
theorem c10_balance_loader_witness :
    (get_balance_dictionary (fun s => (s.length : ℚ))
        (["h"] :: ([["a", "b", "VTI", "c", "d", "30"]]
          ++ [] :: [["a", "b", "ZZZ", "c", "d", "40"]]))
      = get_balance_dictionary (fun s => (s.length : ℚ))
          (["h"] :: ([["a", "b", "VTI", "c", "d", "30"]] ++ [[]])))
    ∧ ((["a", "b", "VMFXX", "c", "d", "90"] ≠ ([] : List String)
        ∧ ["a", "b", "VMFXX", "c", "d", "90"].getD 2 "" = "VMFXX")
      ∧ get_balance_rows "VMFXX" (fun s => (s.length : ℚ))
            [["a", "b", "VMFXX", "c", "d", "90"]] []
          = get_balance_rows "VMFXX" (fun s => (s.length : ℚ)) [] [])
    ∧ ((([] : List String) ∉ [["a", "b", "VTI", "c", "d", "30"]]
        ∧ ["a", "b", "VTI", "c", "d", "505"] ≠ ([] : List String)
        ∧ ["a", "b", "VTI", "c", "d", "505"].getD 2 "" ≠ "VMFXX")
      ∧ lookupOpt (get_balance_rows "VMFXX" (fun s => (s.length : ℚ))
            ([["a", "b", "VTI", "c", "d", "30"]]
              ++ [["a", "b", "VTI", "c", "d", "505"]]) [])
          (["a", "b", "VTI", "c", "d", "505"].getD 2 "")
          = some ((fun s => (s.length : ℚ))
              (["a", "b", "VTI", "c", "d", "505"].getD 5 ""))) := by
  have h := c10_balance_loader (fun s => (s.length : ℚ))
  refine ⟨?_, ⟨?_, ?_⟩, ⟨?_, ?_⟩⟩
  · exact h.1 ["h"] [["a", "b", "VTI", "c", "d", "30"]]
      [["a", "b", "ZZZ", "c", "d", "40"]]
  · exact ⟨by decide, by decide⟩
  · exact h.2.1 ["a", "b", "VMFXX", "c", "d", "90"] [] [] (by decide) (by decide)
  · exact ⟨by decide, by decide, by decide⟩
  · exact h.2.2 [["a", "b", "VTI", "c", "d", "30"]]
      ["a", "b", "VTI", "c", "d", "505"] [] (by decide) (by decide) (by decide)

end VGRD
